import Mathlib

set_option autoImplicit false

/-!
Verification of `contrib/get_supported_version_csi-sidecar.py` and
`release-tools/contrib/get_supported_version_csi-sidecar.py`.

The development shallowly embeds the Python utility:

* `end_of_life_grouped_versions` (identical in both copies) is embedded with
  timestamps as integer seconds (a `datetime` instant); `now - t < timedelta(days=n)`
  becomes integer comparison against `n * 86400` seconds.  A Python crash
  (`IndexError` from `pop(0)` / `[-1]` / `[0]` on an empty list) is `none`.
* `parse_version` (identical in both copies) is embedded over `List Char`,
  mirroring the regex `v(\d+)\.(\d+)\.(\d+)` anchored at the start: each `\d+`
  is a maximal digit run (greedy, and backtracking past the maximal run can
  never help because the following literal `.` is not a digit).
* `get_release_docker_image`, which DIFFERS between the two copies, is embedded
  twice, together with a leftmost-match model of `re.search` for each pattern.
* the `argparse` namespace and the relevant parts of `main` are embedded as
  attribute lists / record updates following the documented semantics of
  `argparse` (`store_true` actions, `dest=` attribute naming).
* `duration_ago` is embedded with a Gregorian-calendar datetime model and a
  faithful translation of `dateutil.relativedelta(dt1, dt2)` for `dt2 ≤ dt1`
  (the regime of the claims: `dt` is a past release date).
-/

/-! ## The EOL policy evaluator (`end_of_life_grouped_versions`)

Identical in both copies of the script.  A release is a `(tag, published)`
pair; `published` is an instant in seconds.  The grouped mapping
`versions : dict[(major, minor), list[(tag, datetime)]]` is embedded as an
association list of its items in insertion order; `sorted(versions.items(),
key=lambda x: x[0], reverse=True)` is a stable descending sort on the
lexicographically ordered `(major, minor)` key, embedded with the stable
`List.insertionSort`. -/

/-- A `(tag, published-datetime)` pair; the datetime is an instant in seconds. -/
abbrev Release := String × Int

/-- One item of the grouped-versions mapping: a `(major, minor)` key with the
releases of that minor line in listing order (newest listed first). -/
abbrev VGroup := (Nat × Nat) × List Release

/-- Lexicographic order on `(major, minor)` keys — Python tuple `<=`. -/
abbrev keyLe (a b : Nat × Nat) : Prop :=
  a.1 < b.1 ∨ (a.1 = b.1 ∧ a.2 ≤ b.2)

/-- `sorted(versions.items(), key=lambda x: x[0], reverse=True)`: stable sort,
newest `(major, minor)` key first. -/
def sortGroupsDesc (versions : List VGroup) : List VGroup :=
  versions.insertionSort (fun g h => keyLe h.1 g.1)

/-- `datetime.timedelta(days=365)` in seconds. -/
def one_year : Int := 365 * 86400

/-- `datetime.timedelta(days=90)` in seconds. -/
def three_months : Int := 90 * 86400

/-- The `for v in sorted_versions_list:` loop body of
`end_of_life_grouped_versions`: `first_release = v[1][-1]`,
`last_release = v[1][0]`; append `last_release` when
`now - first_release[1] < one_year`, else when
`now - last_release[1] < three_months`; `none` models the `IndexError`
raised by `[-1]`/`[0]` on an empty group. -/
def eolLoop (now : Int) : List VGroup → Option (List Release)
  | [] => some []
  | v :: vs =>
    match v.2.getLast?, v.2.head? with
    | some first_release, some last_release =>
      if now - first_release.2 < one_year then
        (eolLoop now vs).map (fun l => last_release :: l)
      else if now - last_release.2 < three_months then
        (eolLoop now vs).map (fun l => last_release :: l)
      else
        eolLoop now vs
    | _, _ => none

/-- `end_of_life_grouped_versions(versions)`, with `datetime.now()` passed
explicitly.  `none` models the uncaught `IndexError`: `pop(0)` on an empty
sorted list, or `latest[1][-1]` on an empty group. -/
def end_of_life_grouped_versions (now : Int) (versions : List VGroup) :
    Option (List Release) :=
  match sortGroupsDesc versions with
  | [] => none
  | latest :: rest =>
    match latest.2.getLast? with
    | some latestOldest => (eolLoop now rest).map (fun l => latestOldest :: l)
    | none => none

/-- The three-way support rule the loop applies to one non-newest group:
writing `first_release` for the group's last-ordered entry (`v[1][-1]`, its
oldest listed release) and `last_release` for its first-ordered entry
(`v[1][0]`, its newest listed release), the group contributes `last_release`
when `now - first_release < 365 days`, else `last_release` when
`now - last_release < 90 days`, else nothing. -/
def groupContribution (now : Int) (v : VGroup) : List Release :=
  match v.2.getLast?, v.2.head? with
  | some first_release, some last_release =>
    if now - first_release.2 < one_year then [last_release]
    else if now - last_release.2 < three_months then [last_release]
    else []
  | _, _ => []

/-! ## The version parser (`parse_version`)

Identical in both copies.  `re.match(r"v(\d+)\.(\d+)\.(\d+)", version)`
anchors at the start of the string; each `\d+` captures a maximal nonempty
digit run (`takeWhile`), and the match fails unless the literal pieces
follow. -/

/-- `int(...)` on a captured digit string: decimal value of a digit run. -/
def digitsToNat (l : List Char) : Nat :=
  l.foldl (fun n c => 10 * n + (c.toNat - 48)) 0

/-- Regex building block: a literal character, consumed from the front. -/
def matchLit (c : Char) (l : List Char) : Option (List Char) :=
  match l with
  | x :: r => if x = c then some r else none
  | [] => none

/-- Regex building block `\d+`: a maximal nonempty digit run (greedy;
backtracking past the maximal run can never help `parse_version`'s pattern
because the character required next, a literal `.`, is not a digit). -/
def matchDigits (l : List Char) : Option (List Char × List Char) :=
  if l.takeWhile Char.isDigit = [] then none
  else some (l.takeWhile Char.isDigit, l.dropWhile Char.isDigit)

/-- `parse_version(version)`: match `v(\d+)\.(\d+)\.(\d+)` at the start of
the string (`re.match` anchors there) and return the three captured integers,
or `None` (here `none`) when the pattern does not match.  The function never
raises. -/
def parse_version (s : String) : Option (Nat × Nat × Nat) :=
  (matchLit 'v' s.data).bind fun r0 =>
  (matchDigits r0).bind fun p1 =>
  (matchLit '.' p1.2).bind fun r2 =>
  (matchDigits r2).bind fun p2 =>
  (matchLit '.' p2.2).bind fun r4 =>
  (matchDigits r4).bind fun p3 =>
  some (digitsToNat p1.1, digitsToNat p2.1, digitsToNat p3.1)

/-- A string whose start matches `v<digits>.<digits>.<digits>`: some
decomposition into the leading `v`, three nonempty digit runs separated by
dots, and an arbitrary remainder. -/
def VersionShape (s : String) : Prop :=
  ∃ d1 d2 d3 rest : List Char,
    s.data = 'v' :: (d1 ++ '.' :: (d2 ++ '.' :: (d3 ++ rest))) ∧
    d1 ≠ [] ∧ d2 ≠ [] ∧ d3 ≠ [] ∧
    (∀ c ∈ d1, c.isDigit) ∧ (∀ c ∈ d2, c.isDigit) ∧ (∀ c ∈ d3, c.isDigit)

/-! ## `get_release_docker_image` — the two copies DIFFER

contrib copy:
`match = re.search(r"`+"`docker pull (.*)`"+r"`", output); docker_image = match.group(1)`
(the pattern is backtick, `docker pull `, greedy capture, backtick; an
unguarded `.group(1)` raises `AttributeError` when there is no match).

release-tools copy:
`match = re.search(r"docker pull ([\.\/\-\:\w\d]*)", output);
docker_image = match.group(1) if match else ''`.

`re.search` is modelled as leftmost-position match: try the pattern anchored
at each position, left to right.  `\w` is modelled over ASCII word
characters (the script's inputs are release-page texts with ASCII image
names). -/

/-- The backtick character (the file avoids a literal one). -/
def btick : Char := Char.ofNat 96

/-- The greedy `(.*)` followed by a literal backtick, at the current
position: `.` does not cross a newline, and greediness makes the closing
backtick the last one on the line; the capture is everything before it, or
no match when the line has no further backtick. -/
def beforeLastTick (l : List Char) : Option (List Char) :=
  match l.reverse.dropWhile (fun c => c ≠ btick) with
  | [] => none
  | _ :: restRev => some restRev.reverse

/-- The contrib pattern attempted at the current position: the 13-character
literal (backtick then `docker pull` then space), then the greedy capture
closed by a backtick on the same line. -/
def contribMatchAt (l : List Char) : Option (List Char) :=
  if (btick :: "docker pull ".data).isPrefixOf l then
    beforeLastTick ((l.drop 13).takeWhile (fun c => c ≠ Char.ofNat 10))
  else none

/-- `re.search` for the contrib pattern: first position where it matches. -/
def searchContrib : List Char → Option (List Char)
  | [] => none
  | c :: t =>
    match contribMatchAt (c :: t) with
    | some r => some r
    | none => searchContrib t

/-- One character of the release-tools capture class `[\.\/\-\:\w\d]`. -/
def imageChar (c : Char) : Bool :=
  c = '.' || c = '/' || c = '-' || c = ':' || c.isAlphanum || c = '_'

/-- The release-tools pattern attempted at the current position: the
12-character literal `docker pull ` then a greedy, possibly empty run of
image characters. -/
def rtMatchAt (l : List Char) : Option (List Char) :=
  if ("docker pull ".data).isPrefixOf l then
    some ((l.drop 12).takeWhile imageChar)
  else none

/-- `re.search` for the release-tools pattern. -/
def searchRT : List Char → Option (List Char)
  | [] => none
  | c :: t =>
    match rtMatchAt (c :: t) with
    | some r => some r
    | none => searchRT t

/-- The contrib copy's `get_release_docker_image(repo, version)` after the
`gh release view` text is obtained (`output`): `none` models the
`AttributeError` crash of the unguarded `match.group(1)` when the pattern
has no match. -/
def get_release_docker_image_contrib (version output : String) :
    Option (String × String) :=
  match searchContrib output.data with
  | some img => some (version, String.mk img)
  | none => none

/-- The release-tools copy's `get_release_docker_image`: total — on no match
it returns the version paired with the empty image string. -/
def get_release_docker_image_rt (version output : String) : String × String :=
  (version,
    match searchRT output.data with
    | some img => String.mk img
    | none => "")

/-! ## The argument parser and the driver (`main`)

`argparse` is the Python standard library, not part of this repository; its
`store_true` action, `default=`, and `dest=` attribute naming are modelled
from their documented semantics.  Both copies declare:
`--repo` (`-R`) with `dest='repos'` (append), `--display` (`-d`) as
`store_true` with `default=True`, `--doc` (`-D`) as `store_true`
(default `False`). -/

/-- A Python value stored on the argparse namespace. -/
inductive PyVal where
  | str (s : String)
  | strList (l : List String)
  | bool (b : Bool)
deriving DecidableEq

/-- The argparse namespace object `args`: its attributes are exactly the
three declared destinations `repos`, `display` and `doc`. -/
def argNamespace (repos : List String) (display doc : Bool) :
    List (String × PyVal) :=
  [("repos", PyVal.strList repos), ("display", PyVal.bool display),
   ("doc", PyVal.bool doc)]

/-- Python attribute lookup (`args.<name>`): `none` is the `AttributeError`
raised for an attribute the namespace does not define. -/
def getattr? (ns : List (String × PyVal)) (name : String) : Option PyVal :=
  (ns.find? (fun a => a.1 == name)).map (fun a => a.2)

/-- `store_true` semantics: the attribute starts at its declared default and
is set to `True` when the flag occurs on the command line. -/
def storeTrueParse (flagPresent : Bool) (dflt : Bool) : Bool :=
  if flagPresent then true else dflt

/-- The parsed arguments of the script, as `main` reads them. -/
structure ParsedArgs where
  repos : List String
  display : Bool
  doc : Bool
deriving DecidableEq

/-- `args = parser.parse_args()` for the script's three declared arguments:
`repos` collects the repeated `-R` values; `display` is `store_true` with
`default=True`; `doc` is `store_true` with the implicit default `False`. -/
def parseScriptArgs (repos : List String) (dGiven DGiven : Bool) :
    ParsedArgs :=
  { repos := repos
  , display := storeTrueParse dGiven true
  , doc := storeTrueParse DGiven false }

/-- The guard `if args.display:` of the supported-versions section printed
for each repository. -/
def displaySectionPrinted (args : ParsedArgs) : Bool :=
  args.display

/-- The contrib copy's `--doc` loop over `eol_versions`: each iteration
evaluates `args.repo` first (`get_release_docker_image(args.repo,
version[0])`); a missing attribute raises `AttributeError` (`none`) before
any `tag\timage` line is produced.  Were the attribute a string, the
iteration would extract the image from the `view` collaborator's text (any
other value would make the `subprocess` call raise — also `none`). -/
def docLinesContrib (ns : List (String × PyVal))
    (view : String → String → String) : List Release → Option (List String)
  | [] => some []
  | (tag, _) :: rest =>
    match getattr? ns "repo" with
    | none => none
    | some (PyVal.str repo) =>
      match get_release_docker_image_contrib tag (view repo tag) with
      | none => none
      | some (v, image) =>
        (docLinesContrib ns view rest).map (fun ls => (v ++ "\t" ++ image) :: ls)
    | some _ => none

/-- The contrib copy's `if args.doc:` block for one repository: when the
`doc` attribute is true the section header is printed and the per-release
loop runs; when false nothing is printed. -/
def contribDocSection (ns : List (String × PyVal))
    (view : String → String → String) (eol_versions : List Release) :
    Option (List String) :=
  match getattr? ns "doc" with
  | some (PyVal.bool true) =>
    (docLinesContrib ns view eol_versions).map
      (fun ls =>
        "\nSupported Versions with docker images for each end of life version:\n"
          :: ls)
  | some (PyVal.bool false) => some []
  | _ => none

/-! ## `duration_ago` and `dateutil.relativedelta`

`duration_ago(dt)` computes `relativedelta(datetime.now(), dt)` and prints
the largest nonzero unit.  The datetime model is a Gregorian calendar date
plus a seconds-of-day field; `datetime` comparison and subtraction are
chronological, modelled through the day ordinal.  `relativedelta(dt1, dt2)`
(dateutil) computes `months = (dt1.year - dt2.year) * 12 + (dt1.month -
dt2.month)`, then decrements `months` while `dt2 + relativedelta(months=months)`
(month arithmetic with the day clamped to the target month's length)
overshoots `dt1`, and finally splits `months` into years/months and the exact
remainder `dt1 - dtm` into days/hours/minutes/seconds.  The embedding covers
the regime `dt2 ≤ dt1` (the release date lies in the past), where the initial
`months` is nonnegative and the loop only decrements. -/

/-- A Gregorian leap year (`calendar.isleap`). -/
def isLeap (y : Nat) : Bool :=
  (y % 4 == 0 && y % 100 != 0) || (y % 400 == 0)

/-- `calendar.monthrange(y, m)[1]`: the number of days of month `m`. -/
def daysInMonth (y m : Nat) : Nat :=
  match m with
  | 2 => if isLeap y then 29 else 28
  | 4 => 30
  | 6 => 30
  | 9 => 30
  | 11 => 30
  | _ => 31

/-- Days of year `y` strictly before month `m`. -/
def daysBeforeMonth (y : Nat) : Nat → Nat
  | 0 => 0
  | 1 => 0
  | m + 2 => daysBeforeMonth y (m + 1) + daysInMonth y (m + 1)

/-- Leap years in `[1, y]`. -/
def leapsBefore (y : Nat) : Nat :=
  y / 4 - y / 100 + y / 400

/-- A `datetime.datetime`: Gregorian date plus seconds within the day. -/
structure DT where
  year : Nat
  month : Nat
  day : Nat
  sec : Nat
deriving DecidableEq

/-- A well-formed `datetime` (Python enforces these on construction). -/
abbrev ValidDT (dt : DT) : Prop :=
  1 ≤ dt.year ∧ 1 ≤ dt.month ∧ dt.month ≤ 12 ∧
  1 ≤ dt.day ∧ dt.day ≤ daysInMonth dt.year dt.month ∧ dt.sec < 86400

/-- The proleptic-Gregorian day number of a date (day 1-1-1 is number 0);
`date.toordinal()` shifted by one, which leaves all differences intact. -/
def ordinalDate (y m d : Nat) : Nat :=
  365 * (y - 1) + leapsBefore (y - 1) + daysBeforeMonth y m + (d - 1)

/-- The day number of a `datetime`'s date. -/
def ordinal (dt : DT) : Nat :=
  ordinalDate dt.year dt.month dt.day

/-- A `datetime` as a single chronological instant in seconds; comparison
and subtraction of `datetime`s is comparison and subtraction of keys. -/
def dtKey (dt : DT) : Nat :=
  ordinal dt * 86400 + dt.sec

/-- Months elapsed since month 1 of year 1. -/
def monthIndex (dt : DT) : Nat :=
  12 * (dt.year - 1) + (dt.month - 1)

/-- The day number of the first day of the month with index `idx`. -/
def monthStart (idx : Nat) : Nat :=
  ordinalDate (idx / 12 + 1) (idx % 12 + 1) 1

/-- `dt + relativedelta(months=k)` (dateutil `__radd__`): move `k` months
forward, clamping the day to the target month's length; the time of day is
untouched. -/
def shiftMonths (dt : DT) (k : Nat) : DT :=
  { year := (monthIndex dt + k) / 12 + 1
  , month := (monthIndex dt + k) % 12 + 1
  , day := min dt.day
      (daysInMonth ((monthIndex dt + k) / 12 + 1) ((monthIndex dt + k) % 12 + 1))
  , sec := dt.sec }

/-- The `while compare(dt1, dtm):` loop of `relativedelta.__init__` for
`dt2 ≤ dt1`: starting from the month difference, decrement while the shifted
`dt2` overshoots `dt1`.  (For `dt2 ≤ dt1` the loop never goes below zero,
since shifting by zero months returns `dt2` itself.) -/
def adjustMonths (dt1 dt2 : DT) : Nat → Nat
  | 0 => 0
  | m + 1 =>
    if dtKey dt1 < dtKey (shiftMonths dt2 (m + 1)) then adjustMonths dt1 dt2 m
    else m + 1

/-- The fields of a `relativedelta` that `duration_ago` reads. -/
structure RDelta where
  years : Nat
  months : Nat
  days : Nat
  hours : Nat
  minutes : Nat

/-- `relativedelta(dt1, dt2)` for `dt2 ≤ dt1`: the adjusted month count
split as years/months (`_set_months`), and the exact remainder
`dt1 - (dt2 + months)` normalized into days/hours/minutes (`_fix`). -/
def relativedelta (dt1 dt2 : DT) : RDelta :=
  { years :=
      adjustMonths dt1 dt2 (monthIndex dt1 - monthIndex dt2) / 12
  , months :=
      adjustMonths dt1 dt2 (monthIndex dt1 - monthIndex dt2) % 12
  , days :=
      (dtKey dt1
        - dtKey (shiftMonths dt2
            (adjustMonths dt1 dt2 (monthIndex dt1 - monthIndex dt2)))) / 86400
  , hours :=
      (dtKey dt1
        - dtKey (shiftMonths dt2
            (adjustMonths dt1 dt2 (monthIndex dt1 - monthIndex dt2)))) % 86400
        / 3600
  , minutes :=
      (dtKey dt1
        - dtKey (shiftMonths dt2
            (adjustMonths dt1 dt2 (monthIndex dt1 - monthIndex dt2)))) % 86400
        % 3600 / 60 }

/-- `'s' if n > 1 else ''`. -/
def plural (n : Nat) : String :=
  if n > 1 then "s" else ""

/-- `duration_ago(dt)` with `datetime.now()` passed explicitly: print the
largest nonzero unit of `relativedelta(now, dt)`, down to "just now". -/
def duration_ago (now dt : DT) : String :=
  let delta := relativedelta now dt
  if delta.years > 0 then
    toString delta.years ++ " year" ++ plural delta.years ++ " ago"
  else if delta.months > 0 then
    toString delta.months ++ " month" ++ plural delta.months ++ " ago"
  else if delta.days > 0 then
    toString delta.days ++ " day" ++ plural delta.days ++ " ago"
  else if delta.hours > 0 then
    toString delta.hours ++ " hour" ++ plural delta.hours ++ " ago"
  else if delta.minutes > 0 then
    toString delta.minutes ++ " minute" ++ plural delta.minutes ++ " ago"
  else "just now"

/-! ## Lemmas about the sort and the loop -/

/-- The sorted items are a permutation of the mapping's items. -/
lemma sortGroupsDesc_perm (versions : List VGroup) :
    (sortGroupsDesc versions).Perm versions :=
  List.perm_insertionSort _ _

/-- The sort is descending on keys: every later item's key is `keyLe` every
earlier item's key. -/
lemma sortGroupsDesc_sorted (versions : List VGroup) :
    (sortGroupsDesc versions).Sorted (fun g h => keyLe h.1 g.1) := by
  have tot : ∀ a b : VGroup, keyLe b.1 a.1 ∨ keyLe a.1 b.1 := by
    intro ⟨⟨a1, a2⟩, _⟩ ⟨⟨b1, b2⟩, _⟩
    simp only [keyLe]
    omega
  have trans : ∀ a b c : VGroup,
      keyLe b.1 a.1 → keyLe c.1 b.1 → keyLe c.1 a.1 := by
    intro ⟨⟨a1, a2⟩, _⟩ ⟨⟨b1, b2⟩, _⟩ ⟨⟨c1, c2⟩, _⟩
    simp only [keyLe]
    omega
  exact @List.sorted_insertionSort _ _ _ ⟨tot⟩ ⟨fun {a b c} => trans a b c⟩ versions

/-- A nonempty list has a last element. -/
lemma exists_getLast?_eq_some {α : Type} {l : List α} (h : l ≠ []) :
    ∃ a, l.getLast? = some a := by
  rw [← Option.isSome_iff_exists, List.getLast?_isSome]
  exact h

/-- A nonempty list has a head element. -/
lemma exists_head?_eq_some {α : Type} {l : List α} (h : l ≠ []) :
    ∃ a, l.head? = some a := by
  rw [← Option.isSome_iff_exists, List.head?_isSome]
  exact h

/-- On groups with nonempty release lists the loop never crashes and each
group contributes exactly `groupContribution`. -/
lemma eolLoop_eq_flatMap (now : Int) (vs : List VGroup)
    (h : ∀ v ∈ vs, v.2 ≠ []) :
    eolLoop now vs = some (vs.flatMap (groupContribution now)) := by
  induction vs with
  | nil => simp [eolLoop]
  | cons v vs ih =>
    obtain ⟨fr, hfr⟩ := exists_getLast?_eq_some (h v (by simp))
    obtain ⟨lr, hlr⟩ := exists_head?_eq_some (h v (by simp))
    have ih' := ih (fun w hw => h w (by simp [hw]))
    simp only [eolLoop, groupContribution, hfr, hlr, List.flatMap_cons, ih']
    split_ifs <;> simp

/-- Each group contributes at most one release, and only one of its own. -/
lemma groupContribution_length_le_one (now : Int) (v : VGroup) :
    (groupContribution now v).length ≤ 1 := by
  unfold groupContribution
  rcases v.2.getLast? with _ | fr <;> rcases v.2.head? with _ | lr <;>
    simp <;> split_ifs <;> simp

/-- Whatever a group contributes is one of that group's releases. -/
lemma groupContribution_mem (now : Int) (v : VGroup) (r : Release)
    (hr : r ∈ groupContribution now v) : r ∈ v.2 := by
  unfold groupContribution at hr
  rcases hfr : v.2.getLast? with _ | fr <;> rw [hfr] at hr <;>
    rcases hlr : v.2.head? with _ | lr <;> rw [hlr] at hr <;> simp at hr
  split_ifs at hr <;> simp at hr <;>
    exact hr ▸ List.mem_of_mem_head? (by rw [hlr]; rfl)

/-! ## Claims C1, C2, C3, C5 about the EOL policy evaluator -/

/-- C1: for every grouped mapping with at least two `(major, minor)` groups
(all with at least one listed release, as the grouper produces), the
evaluator decides each non-newest group by exactly the three-way rule
`groupContribution`: if `now` minus the timestamp of the group's last-ordered
entry (its oldest listed release) is strictly under 365 days the group's
first-ordered entry (its newest listed release) is included; otherwise if
`now` minus the newest listed release's timestamp is strictly under 90 days
that newest listed release is included; otherwise the group contributes
nothing.  The returned supported set is the newest group's exempt entry
followed by the per-group contributions in descending key order. -/
theorem eol_three_way_rule (now : Int) (versions : List VGroup)
    (h2 : 2 ≤ versions.length) (hne : ∀ v ∈ versions, v.2 ≠ []) :
    ∃ (latest : VGroup) (rest : List VGroup) (l0 : Release),
      sortGroupsDesc versions = latest :: rest ∧
      latest.2.getLast? = some l0 ∧
      end_of_life_grouped_versions now versions
        = some (l0 :: rest.flatMap (groupContribution now)) := by
  have hperm := sortGroupsDesc_perm versions
  have hlen : (sortGroupsDesc versions).length = versions.length :=
    hperm.length_eq
  cases hs : sortGroupsDesc versions with
  | nil => rw [hs] at hlen; simp at hlen; omega
  | cons latest rest =>
    have hlat : latest ∈ versions := hperm.subset (by rw [hs]; simp)
    obtain ⟨l0, hl0⟩ := exists_getLast?_eq_some (hne latest hlat)
    refine ⟨latest, rest, l0, rfl, hl0, ?_⟩
    have hrest : ∀ w ∈ rest, w.2 ≠ [] := fun w hw =>
      hne w (hperm.subset (by rw [hs]; exact List.mem_cons_of_mem _ hw))
    simp only [end_of_life_grouped_versions, hs, hl0,
      eolLoop_eq_flatMap now rest hrest]
    rfl

/-- C1 witness at a concrete input: `now` is day 1000 (in seconds); group
`(3,5)` has one release from day 900, group `(3,4)` has releases from days
980 and 200. -/
theorem eol_three_way_rule_witness :
    ∃ (latest : VGroup) (rest : List VGroup) (l0 : Release),
      sortGroupsDesc [((3, 4), [("v3.4.1", 84672000), ("v3.4.0", 17280000)]),
                      ((3, 5), [("v3.5.0", 77760000)])] = latest :: rest ∧
      latest.2.getLast? = some l0 ∧
      end_of_life_grouped_versions 86400000
          [((3, 4), [("v3.4.1", 84672000), ("v3.4.0", 17280000)]),
           ((3, 5), [("v3.5.0", 77760000)])]
        = some (l0 :: rest.flatMap (groupContribution 86400000)) :=
  eol_three_way_rule 86400000 _ (by decide) (by decide)

/-- C2: for every non-empty grouped mapping (groups nonempty), the evaluator
returns a supported set whose first element is the last-ordered entry
(`group[-1]`, the oldest listed release) of the group with the largest
`(major, minor)` key, unconditionally; the rest of the supported set is
computed by the loop from the remaining groups only, so the newest group
contributes exactly this one entry. -/
theorem eol_newest_always_supported (now : Int) (versions : List VGroup)
    (hv : versions ≠ []) (hne : ∀ v ∈ versions, v.2 ≠ []) :
    ∃ (latest : VGroup) (rest : List VGroup) (l0 : Release)
      (tail : List Release),
      sortGroupsDesc versions = latest :: rest ∧
      latest ∈ versions ∧
      (∀ v ∈ versions, keyLe v.1 latest.1) ∧
      latest.2.getLast? = some l0 ∧
      eolLoop now rest = some tail ∧
      end_of_life_grouped_versions now versions = some (l0 :: tail) := by
  have hperm := sortGroupsDesc_perm versions
  have hlen : (sortGroupsDesc versions).length = versions.length :=
    hperm.length_eq
  cases hs : sortGroupsDesc versions with
  | nil =>
    rw [hs] at hlen
    cases versions with
    | nil => exact absurd rfl hv
    | cons a l => simp at hlen
  | cons latest rest =>
    have hlat : latest ∈ versions := hperm.subset (by rw [hs]; simp)
    obtain ⟨l0, hl0⟩ := exists_getLast?_eq_some (hne latest hlat)
    have hrest : ∀ w ∈ rest, w.2 ≠ [] := fun w hw =>
      hne w (hperm.subset (by rw [hs]; exact List.mem_cons_of_mem _ hw))
    have hsorted := sortGroupsDesc_sorted versions
    rw [hs, List.Sorted, List.pairwise_cons] at hsorted
    have hmax : ∀ v ∈ versions, keyLe v.1 latest.1 := by
      intro v hvmem
      have : v ∈ latest :: rest := by
        rw [← hs]
        exact (hperm.mem_iff).mpr hvmem
      rcases List.mem_cons.mp this with heq | hmem
      · subst heq
        right
        exact ⟨rfl, le_rfl⟩
      · exact hsorted.1 v hmem
    refine ⟨latest, rest, l0, rest.flatMap (groupContribution now),
      rfl, hlat, hmax, hl0, eolLoop_eq_flatMap now rest hrest, ?_⟩
    simp only [end_of_life_grouped_versions, hs, hl0,
      eolLoop_eq_flatMap now rest hrest]
    rfl

/-- C2 witness at a concrete input: the `(3,5)` group is 900 days old yet its
`group[-1]` entry is supported and placed first. -/
theorem eol_newest_always_supported_witness :
    ∃ (latest : VGroup) (rest : List VGroup) (l0 : Release)
      (tail : List Release),
      sortGroupsDesc [((3, 4), [("v3.4.1", 84672000), ("v3.4.0", 17280000)]),
                      ((3, 5), [("v3.5.0", 8640000)])] = latest :: rest ∧
      latest ∈ ([((3, 4), [("v3.4.1", 84672000), ("v3.4.0", 17280000)]),
                 ((3, 5), [("v3.5.0", 8640000)])] : List VGroup) ∧
      (∀ v ∈ ([((3, 4), [("v3.4.1", 84672000), ("v3.4.0", 17280000)]),
               ((3, 5), [("v3.5.0", 8640000)])] : List VGroup),
        keyLe v.1 latest.1) ∧
      latest.2.getLast? = some l0 ∧
      eolLoop 86400000 rest = some tail ∧
      end_of_life_grouped_versions 86400000
          [((3, 4), [("v3.4.1", 84672000), ("v3.4.0", 17280000)]),
           ((3, 5), [("v3.5.0", 8640000)])]
        = some (l0 :: tail) := by
  exact eol_newest_always_supported 86400000
    [((3, 4), [("v3.4.1", 84672000), ("v3.4.0", 17280000)]),
     ((3, 5), [("v3.5.0", 8640000)])] (by decide) (by decide)

/-- C3: for every non-empty grouped mapping (groups nonempty), the supported
set is the newest group's single exempt entry followed by per-group
contributions of length at most one, each drawn from its own group — no
single `(major, minor)` group contributes two releases. -/
theorem eol_at_most_one_per_group (now : Int) (versions : List VGroup)
    (hv : versions ≠ []) (hne : ∀ v ∈ versions, v.2 ≠ []) :
    ∃ (latest : VGroup) (rest : List VGroup) (l0 : Release),
      sortGroupsDesc versions = latest :: rest ∧
      latest.2.getLast? = some l0 ∧
      end_of_life_grouped_versions now versions
        = some (l0 :: rest.flatMap (groupContribution now)) ∧
      (∀ v : VGroup, (groupContribution now v).length ≤ 1) ∧
      (∀ v ∈ rest, ∀ r ∈ groupContribution now v, r ∈ v.2) := by
  have hperm := sortGroupsDesc_perm versions
  have hlen : (sortGroupsDesc versions).length = versions.length :=
    hperm.length_eq
  cases hs : sortGroupsDesc versions with
  | nil =>
    rw [hs] at hlen
    cases versions with
    | nil => exact absurd rfl hv
    | cons a l => simp at hlen
  | cons latest rest =>
    have hlat : latest ∈ versions := hperm.subset (by rw [hs]; simp)
    obtain ⟨l0, hl0⟩ := exists_getLast?_eq_some (hne latest hlat)
    have hrest : ∀ w ∈ rest, w.2 ≠ [] := fun w hw =>
      hne w (hperm.subset (by rw [hs]; exact List.mem_cons_of_mem _ hw))
    refine ⟨latest, rest, l0, rfl, hl0, ?_,
      groupContribution_length_le_one now,
      fun v _ r hr => groupContribution_mem now v r hr⟩
    simp only [end_of_life_grouped_versions, hs, hl0,
      eolLoop_eq_flatMap now rest hrest]
    rfl

/-- C3 witness at a concrete input with a two-release non-newest group. -/
theorem eol_at_most_one_per_group_witness :
    ∃ (latest : VGroup) (rest : List VGroup) (l0 : Release),
      sortGroupsDesc [((3, 4), [("v3.4.1", 84672000), ("v3.4.0", 17280000)]),
                      ((3, 5), [("v3.5.0", 77760000)])] = latest :: rest ∧
      latest.2.getLast? = some l0 ∧
      end_of_life_grouped_versions 86400000
          [((3, 4), [("v3.4.1", 84672000), ("v3.4.0", 17280000)]),
           ((3, 5), [("v3.5.0", 77760000)])]
        = some (l0 :: rest.flatMap (groupContribution 86400000)) ∧
      (∀ v : VGroup, (groupContribution 86400000 v).length ≤ 1) ∧
      (∀ v ∈ rest, ∀ r ∈ groupContribution 86400000 v, r ∈ v.2) :=
  eol_at_most_one_per_group 86400000 _ (by decide) (by decide)

/-- C5: applied to an empty grouped mapping (zero parseable releases), the
evaluator raises (models the uncaught `IndexError` from `pop(0)` on the empty
sorted list — the "no releases found" failure) rather than returning a
supported set, for every current time. -/
theorem eol_empty_mapping_raises (now : Int) :
    end_of_life_grouped_versions now [] = none :=
  rfl

/-! ## Lemmas about the version parser, and claim C4 -/

/-- `takeWhile`/`dropWhile` split a list at a planted boundary: a prefix all
satisfying `p` followed by a remainder whose head fails `p`. -/
lemma takeWhile_append_eq {α : Type} (p : α → Bool) (d r : List α)
    (hd : ∀ c ∈ d, p c = true) (hr : ∀ c, r.head? = some c → p c = false) :
    (d ++ r).takeWhile p = d ∧ (d ++ r).dropWhile p = r := by
  induction d with
  | nil =>
    simp only [List.nil_append]
    cases r with
    | nil => simp
    | cons a t =>
      have := hr a rfl
      simp [List.takeWhile_cons, List.dropWhile_cons, this]
  | cons a d ih =>
    have ha : p a = true := hd a (by simp)
    have ih' := ih (fun c hc => hd c (by simp [hc]))
    simp [List.takeWhile_cons, List.dropWhile_cons, ha, ih'.1, ih'.2]

/-- The head of `dropWhile p l` fails `p`. -/
lemma dropWhile_head_false {α : Type} (p : α → Bool) (l : List α) :
    ∀ c, (l.dropWhile p).head? = some c → p c = false := by
  induction l with
  | nil => intro c hc; simp at hc
  | cons a t ih =>
    intro c hc
    rw [List.dropWhile_cons] at hc
    split_ifs at hc with ha
    · exact ih c hc
    · simp at hc
      subst hc
      simpa using ha

/-- `matchLit` consumes exactly the planted literal. -/
lemma matchLit_cons (c : Char) (r : List Char) : matchLit c (c :: r) = some r := by
  simp [matchLit]

/-- Inverting a successful `matchLit`. -/
lemma matchLit_some {c : Char} {l r : List Char} (h : matchLit c l = some r) :
    l = c :: r := by
  cases l with
  | nil => simp [matchLit] at h
  | cons x t =>
    simp only [matchLit] at h
    by_cases hx : x = c
    · rw [if_pos hx] at h
      simp only [Option.some.injEq] at h
      rw [hx, h]
    · rw [if_neg hx] at h
      simp at h

/-- `matchDigits` on a planted decomposition. -/
lemma matchDigits_of_decomp (d r : List Char) (hd : ∀ c ∈ d, c.isDigit)
    (hne : d ≠ []) (hr : ∀ c, r.head? = some c → c.isDigit = false) :
    matchDigits (d ++ r) = some (d, r) := by
  have e := takeWhile_append_eq Char.isDigit d r hd hr
  simp [matchDigits, e.1, e.2, hne]

/-- Inverting a successful `matchDigits`. -/
lemma matchDigits_some {l d r : List Char} (h : matchDigits l = some (d, r)) :
    l = d ++ r ∧ d ≠ [] ∧ (∀ c ∈ d, c.isDigit) ∧
      (∀ c, r.head? = some c → c.isDigit = false) := by
  unfold matchDigits at h
  by_cases he : l.takeWhile Char.isDigit = []
  · rw [if_pos he] at h
    simp at h
  · rw [if_neg he] at h
    simp only [Option.some.injEq, Prod.mk.injEq] at h
    obtain ⟨hd, hr⟩ := h
    subst hd
    subst hr
    exact ⟨(List.takeWhile_append_dropWhile _ _).symm, he,
      fun c hc => List.mem_takeWhile_imp hc,
      dropWhile_head_false Char.isDigit l⟩

/-- A successful parse exhibits the `v<digits>.<digits>.<digits>` shape. -/
lemma parse_version_shape {s : String} {t : Nat × Nat × Nat}
    (hp : parse_version s = some t) : VersionShape s := by
  unfold parse_version at hp
  cases hv : matchLit 'v' s.data with
  | none => rw [hv, Option.none_bind] at hp; exact absurd hp (by simp)
  | some r0 =>
  rw [hv, Option.some_bind] at hp
  cases hm1 : matchDigits r0 with
  | none => rw [hm1, Option.none_bind] at hp; exact absurd hp (by simp)
  | some p1 =>
  obtain ⟨d1, r1⟩ := p1
  rw [hm1, Option.some_bind] at hp
  cases hl1 : matchLit '.' r1 with
  | none => rw [hl1, Option.none_bind] at hp; exact absurd hp (by simp)
  | some r2 =>
  rw [hl1, Option.some_bind] at hp
  cases hm2 : matchDigits r2 with
  | none => rw [hm2, Option.none_bind] at hp; exact absurd hp (by simp)
  | some p2 =>
  obtain ⟨d2, r3⟩ := p2
  rw [hm2, Option.some_bind] at hp
  cases hl2 : matchLit '.' r3 with
  | none => rw [hl2, Option.none_bind] at hp; exact absurd hp (by simp)
  | some r4 =>
  rw [hl2, Option.some_bind] at hp
  cases hm3 : matchDigits r4 with
  | none => rw [hm3, Option.none_bind] at hp; exact absurd hp (by simp)
  | some p3 =>
  obtain ⟨d3, r5⟩ := p3
  obtain ⟨e0, h1, hd1, -⟩ := matchDigits_some hm1
  obtain ⟨e2, h2, hd2, -⟩ := matchDigits_some hm2
  obtain ⟨e4, h3, hd3, -⟩ := matchDigits_some hm3
  refine ⟨d1, d2, d3, r5, ?_, h1, h2, h3, hd1, hd2, hd3⟩
  rw [matchLit_some hv, e0, matchLit_some hl1, e2, matchLit_some hl2, e4]

/-- C4: the version parser's contract.  Positive half: for every string
starting with `v`, then three maximal nonempty digit runs separated by dots
(the remainder does not start with a digit, so the runs are the ones the
greedy `\d+` groups capture), `parse_version` returns exactly the triple of
the three integers those runs denote.  Negative half: for every string whose
start does not match the pattern, it returns `none`.  `parse_version` is a
total function, so it never raises. -/
theorem parse_version_contract (s : String) :
    (∀ d1 d2 d3 rest : List Char,
        s.data = 'v' :: (d1 ++ '.' :: (d2 ++ '.' :: (d3 ++ rest))) →
        d1 ≠ [] → d2 ≠ [] → d3 ≠ [] →
        (∀ c ∈ d1, c.isDigit) → (∀ c ∈ d2, c.isDigit) →
        (∀ c ∈ d3, c.isDigit) →
        (∀ c, rest.head? = some c → c.isDigit = false) →
        parse_version s
          = some (digitsToNat d1, digitsToNat d2, digitsToNat d3)) ∧
    (¬ VersionShape s → parse_version s = none) := by
  constructor
  · intro d1 d2 d3 rest hs h1 h2 h3 hd1 hd2 hd3 hrest
    have e1 := matchDigits_of_decomp d1 ('.' :: (d2 ++ '.' :: (d3 ++ rest)))
      hd1 h1 (by intro c hc; simp at hc; subst hc; decide)
    have e2 := matchDigits_of_decomp d2 ('.' :: (d3 ++ rest))
      hd2 h2 (by intro c hc; simp at hc; subst hc; decide)
    have e3 := matchDigits_of_decomp d3 rest hd3 h3 hrest
    simp [parse_version, hs, matchLit_cons, e1, e2, e3]
  · intro hns
    cases hp : parse_version s with
    | none => rfl
    | some t => exact absurd (parse_version_shape hp) hns

/-- C4 witness at concrete inputs: `"v1.2.34xy"` parses to the triple of its
three digit runs, and the empty string (whose start matches nothing) parses
to `none`. -/
theorem parse_version_contract_witness :
    parse_version "v1.2.34xy"
        = some (digitsToNat ['1'], digitsToNat ['2'], digitsToNat ['3', '4']) ∧
    parse_version "" = none := by
  constructor
  · exact (parse_version_contract "v1.2.34xy").1 ['1'] ['2'] ['3', '4']
      ['x', 'y'] (by decide) (by decide) (by decide) (by decide)
      (by decide) (by decide) (by decide) (by decide)
  · refine (parse_version_contract "").2 ?_
    rintro ⟨d1, d2, d3, rest, heq, -⟩
    have : ("" : String).data = [] := rfl
    rw [this] at heq
    exact absurd heq (by simp)

/-! ## Claims C6, C7 about `get_release_docker_image` -/

/-- On character lists with no backtick, the contrib pattern never matches. -/
lemma searchContrib_eq_none (l : List Char) (h : ∀ c ∈ l, c ≠ btick) :
    searchContrib l = none := by
  induction l with
  | nil => rfl
  | cons c t ih =>
    have hc : c ≠ btick := h c (by simp)
    have hm : contribMatchAt (c :: t) = none := by
      unfold contribMatchAt
      rw [if_neg]
      intro hpre
      rw [List.isPrefixOf_cons₂] at hpre
      have hbc : btick = c := by simpa using (Bool.and_elim_left hpre)
      exact hc hbc.symm
    rw [searchContrib, hm]
    exact ih (fun x hx => h x (List.mem_cons_of_mem _ hx))

/-- C6 counterexample: the two copies are not behaviourally identical.  On a
release text whose docker-pull command is not wrapped in backticks, the
contrib copy's `get_release_docker_image` crashes (`none`) while the
release-tools copy returns the version with the extracted image. -/
theorem copies_not_identical_counterexample :
    get_release_docker_image_contrib "v4.5.0"
        "docker pull registry.k8s.io/sig-storage/csi-attacher:v4.5.0"
      = none ∧
    get_release_docker_image_rt "v4.5.0"
        "docker pull registry.k8s.io/sig-storage/csi-attacher:v4.5.0"
      = ("v4.5.0", "registry.k8s.io/sig-storage/csi-attacher:v4.5.0") :=
  ⟨rfl, rfl⟩

/-- C6 amended: the two copies share `parse_version`, `duration_ago`,
`end_of_life_grouped_versions` and `get_versions_from_releases` verbatim,
but their `get_release_docker_image` functions differ: on every release text
containing no backtick, the contrib copy crashes while the release-tools
copy returns a `(version, image)` pair. -/
theorem copies_differ_on_image_extraction (v o : String)
    (h : ∀ c ∈ o.data, c ≠ btick) :
    get_release_docker_image_contrib v o = none ∧
    ∃ img, get_release_docker_image_rt v o = (v, img) := by
  refine ⟨?_, _, rfl⟩
  unfold get_release_docker_image_contrib
  rw [searchContrib_eq_none o.data h]

/-- C6 amended-claim witness at a concrete backtick-free release text. -/
theorem copies_differ_on_image_extraction_witness :
    get_release_docker_image_contrib "v1.9.0" "docker pull k8s.gcr.io/x:v1.9.0"
      = none ∧
    ∃ img, get_release_docker_image_rt "v1.9.0" "docker pull k8s.gcr.io/x:v1.9.0"
      = ("v1.9.0", img) :=
  copies_differ_on_image_extraction "v1.9.0" "docker pull k8s.gcr.io/x:v1.9.0"
    (by decide)

/-- C7 counterexample: on a view-release text where the docker-pull pattern
has no match, the release-tools copy's `get_release_docker_image` does NOT
propagate a crash — it returns `(version, "")`. -/
theorem rt_missing_match_returns_counterexample :
    searchRT ("no image in this release text").data = none ∧
    get_release_docker_image_rt "v1.0.0" "no image in this release text"
      = ("v1.0.0", "") :=
  ⟨rfl, rfl⟩

/-- C7 amended: when the pattern has no match, only the contrib copy
propagates a crash; the release-tools copy guards `match.group(1)` with
`if match else ''` and returns the version with an empty image string. -/
theorem missing_image_match_behaviour (v o : String) :
    (searchContrib o.data = none → get_release_docker_image_contrib v o = none) ∧
    (searchRT o.data = none → get_release_docker_image_rt v o = (v, "")) := by
  constructor
  · intro h
    unfold get_release_docker_image_contrib
    rw [h]
  · intro h
    unfold get_release_docker_image_rt
    rw [h]

/-- C7 amended-claim witness at a concrete no-match text. -/
theorem missing_image_match_behaviour_witness :
    get_release_docker_image_contrib "v2.0.0" "nothing to pull" = none ∧
    get_release_docker_image_rt "v2.0.0" "nothing to pull" = ("v2.0.0", "") :=
  ⟨(missing_image_match_behaviour "v2.0.0" "nothing to pull").1 rfl,
   (missing_image_match_behaviour "v2.0.0" "nothing to pull").2 rfl⟩

/-! ## Claims C9, C10 about the driver -/

/-- C9: in the contrib copy, whenever `--doc` is enabled and the supported
set is non-empty, the per-release image lookup reads the attribute
`args.repo`, which the argument parser never defines (the repositories are
stored under `repos`), so the loop raises `AttributeError` before producing
any tag-and-image line — for every repository list, display setting, `view`
collaborator and non-empty supported set. -/
theorem contrib_doc_section_crashes (repos : List String) (display : Bool)
    (view : String → String → String) (eol_versions : List Release)
    (hne : eol_versions ≠ []) :
    getattr? (argNamespace repos display true) "repo" = none ∧
    (∃ v, getattr? (argNamespace repos display true) "repos" = some v) ∧
    contribDocSection (argNamespace repos display true) view eol_versions
      = none := by
  refine ⟨rfl, ⟨PyVal.strList repos, rfl⟩, ?_⟩
  cases eol_versions with
  | nil => exact absurd rfl hne
  | cons e rest =>
    obtain ⟨tag, ts⟩ := e
    rfl

/-- C9 witness at a concrete invocation: one repository, one supported
release, `--doc` given. -/
theorem contrib_doc_section_crashes_witness :
    getattr? (argNamespace ["kubernetes-csi/external-attacher"] true true)
        "repo" = none ∧
    (∃ v, getattr? (argNamespace ["kubernetes-csi/external-attacher"] true true)
        "repos" = some v) ∧
    contribDocSection (argNamespace ["kubernetes-csi/external-attacher"] true true)
        (fun _ _ => "") [("v1.0.0", 0)] = none :=
  contrib_doc_section_crashes ["kubernetes-csi/external-attacher"] true
    (fun _ _ => "") [("v1.0.0", 0)] (by decide)

/-- C10: the display toggle can never be off.  `--display`/`-d` is declared
`store_true` with `default=True`, so whatever flags are given `args.display`
is `True`; passing `-d` yields exactly the same parsed arguments as omitting
it; and the `if args.display:` supported-versions section is printed on
every run.  (The declaration is identical in both copies.) -/
theorem display_flag_always_true (repos : List String) (dGiven DGiven : Bool) :
    (parseScriptArgs repos dGiven DGiven).display = true ∧
    parseScriptArgs repos true DGiven = parseScriptArgs repos false DGiven ∧
    displaySectionPrinted (parseScriptArgs repos dGiven DGiven) = true := by
  refine ⟨?_, rfl, ?_⟩ <;> cases dGiven <;> rfl

/-! ## Calendar lemmas for `duration_ago` (claim C8) -/

/-- One more year adds one leap day exactly when that year is leap. -/
lemma leapsBefore_succ (n : Nat) :
    leapsBefore (n + 1) = leapsBefore n + (if isLeap (n + 1) then 1 else 0) := by
  have hiff : isLeap (n + 1) = true ↔
      (((n + 1) % 4 = 0 ∧ (n + 1) % 100 ≠ 0) ∨ (n + 1) % 400 = 0) := by
    simp [isLeap]
  by_cases hl : isLeap (n + 1) = true
  · rw [if_pos hl]
    have h := hiff.mp hl
    unfold leapsBefore
    omega
  · rw [if_neg hl]
    have h : ¬(((n + 1) % 4 = 0 ∧ (n + 1) % 100 ≠ 0) ∨ (n + 1) % 400 = 0) :=
      fun hc => hl (hiff.mpr hc)
    unfold leapsBefore
    omega

/-- Every month is 28 to 31 days long. -/
lemma daysInMonth_bounds (y m : Nat) :
    28 ≤ daysInMonth y m ∧ daysInMonth y m ≤ 31 := by
  unfold daysInMonth
  split
  · split_ifs <;> omega
  all_goals omega

/-- January through November total 334 days, 335 in a leap year. -/
lemma daysBeforeMonth_twelve (y : Nat) :
    daysBeforeMonth y 12 = 334 + (if isLeap y then 1 else 0) := by
  by_cases h : isLeap y = true <;> simp [daysBeforeMonth, daysInMonth, h]

/-- Days-before-month differs between two years only by each year's leap
day, and only from March on. -/
lemma daysBeforeMonth_swap (y1 y2 m : Nat) (hm : m ≤ 12) :
    daysBeforeMonth y1 m + (if 3 ≤ m ∧ isLeap y2 = true then 1 else 0)
      = daysBeforeMonth y2 m + (if 3 ≤ m ∧ isLeap y1 = true then 1 else 0) := by
  interval_cases m <;>
    by_cases h1 : isLeap y1 = true <;> by_cases h2 : isLeap y2 = true <;>
      simp [daysBeforeMonth, daysInMonth, h1, h2]

/-- `monthStart` without the inner `- 1`s. -/
lemma monthStart_def (idx : Nat) :
    monthStart idx = 365 * (idx / 12) + leapsBefore (idx / 12)
      + daysBeforeMonth (idx / 12 + 1) (idx % 12 + 1) := by
  unfold monthStart ordinalDate
  simp [Nat.add_sub_cancel]

/-- Stepping one month forward advances the month start by that month's
length. -/
lemma monthStart_succ (idx : Nat) :
    monthStart (idx + 1)
      = monthStart idx + daysInMonth (idx / 12 + 1) (idx % 12 + 1) := by
  have h12 : idx % 12 < 12 := Nat.mod_lt _ (by omega)
  by_cases hr : idx % 12 < 11
  · have e1 : (idx + 1) / 12 = idx / 12 := by omega
    have e2 : (idx + 1) % 12 = idx % 12 + 1 := by omega
    rw [monthStart_def, monthStart_def, e1, e2]
    have hd : daysBeforeMonth (idx / 12 + 1) (idx % 12 + 1 + 1)
        = daysBeforeMonth (idx / 12 + 1) (idx % 12 + 1)
          + daysInMonth (idx / 12 + 1) (idx % 12 + 1) := rfl
    omega
  · have hr11 : idx % 12 = 11 := by omega
    have e1 : (idx + 1) / 12 = idx / 12 + 1 := by omega
    have e2 : (idx + 1) % 12 = 0 := by omega
    have hA := monthStart_def (idx + 1)
    have hB := monthStart_def idx
    rw [e1, e2] at hA
    rw [hr11] at hB
    rw [hr11, hA, hB]
    have hl := leapsBefore_succ (idx / 12)
    have hd := daysBeforeMonth_twelve (idx / 12 + 1)
    have hd1 : daysBeforeMonth (idx / 12 + 1 + 1) (0 + 1) = 0 := rfl
    have hdim : daysInMonth (idx / 12 + 1) (11 + 1) = 31 := rfl
    have hd2 : daysBeforeMonth (idx / 12 + 1) (11 + 1) = daysBeforeMonth (idx / 12 + 1) 12 := rfl
    by_cases hleap : isLeap (idx / 12 + 1) = true
    · rw [if_pos hleap] at hl hd
      omega
    · rw [if_neg hleap] at hl hd
      omega

/-- Month starts advance between 28 and 31 days per month. -/
lemma monthStart_add_le (idx k : Nat) :
    monthStart (idx + k) ≤ monthStart idx + 31 * k ∧
    monthStart idx + 28 * k ≤ monthStart (idx + k) := by
  induction k with
  | zero => simp
  | succ k ih =>
    have hs := monthStart_succ (idx + k)
    have hb := daysInMonth_bounds ((idx + k) / 12 + 1) ((idx + k) % 12 + 1)
    have he : idx + (k + 1) = (idx + k) + 1 := rfl
    rw [he]
    omega

/-- A twelve-month step advances the month start by 365 or 366 days. -/
lemma monthStart_add_twelve (idx : Nat) :
    monthStart idx + 365 ≤ monthStart (idx + 12) ∧
    monthStart (idx + 12) ≤ monthStart idx + 366 := by
  have e1 : (idx + 12) / 12 = idx / 12 + 1 := by omega
  have e2 : (idx + 12) % 12 = idx % 12 := by omega
  have hA := monthStart_def (idx + 12)
  have hB := monthStart_def idx
  rw [e1, e2] at hA
  have hl := leapsBefore_succ (idx / 12)
  have hswap := daysBeforeMonth_swap (idx / 12 + 1) (idx / 12 + 1 + 1)
    (idx % 12 + 1) (by omega)
  by_cases hm3 : 3 ≤ idx % 12 + 1 <;>
    by_cases hA1 : isLeap (idx / 12 + 1) = true <;>
    by_cases hB1 : isLeap (idx / 12 + 1 + 1) = true <;>
    simp [hm3, hA1, hB1] at hl hswap <;>
    omega

/-- `monthStart` is monotone. -/
lemma monthStart_mono {i j : Nat} (h : i ≤ j) : monthStart i ≤ monthStart j := by
  have hb := monthStart_add_le i (j - i)
  have he : i + (j - i) = j := by omega
  rw [he] at hb
  omega

/-- On valid datetimes the ordinal splits into month start plus day offset. -/
lemma ordinal_eq_monthStart (dt : DT) (h : ValidDT dt) :
    ordinal dt = monthStart (monthIndex dt) + (dt.day - 1) := by
  obtain ⟨hy, hm1, hm2, hd1, hd2, hs⟩ := h
  have e1 : (12 * (dt.year - 1) + (dt.month - 1)) / 12 = dt.year - 1 := by omega
  have e2 : (12 * (dt.year - 1) + (dt.month - 1)) % 12 = dt.month - 1 := by omega
  unfold ordinal monthIndex
  rw [monthStart_def, e1, e2]
  have e3 : dt.month - 1 + 1 = dt.month := by omega
  have e4 : dt.year - 1 + 1 = dt.year := by omega
  rw [e3, e4]
  unfold ordinalDate
  omega

/-- The ordinal of a month-shifted datetime. -/
lemma ordinal_shiftMonths (dt : DT) (k : Nat) :
    ordinal (shiftMonths dt k)
      = monthStart (monthIndex dt + k)
        + (min dt.day (daysInMonth ((monthIndex dt + k) / 12 + 1)
            ((monthIndex dt + k) % 12 + 1)) - 1) := by
  unfold shiftMonths ordinal ordinalDate
  rw [monthStart_def]
  simp [Nat.add_sub_cancel]

/-- Shifting a valid datetime by zero months returns it unchanged. -/
lemma shiftMonths_zero (dt : DT) (h : ValidDT dt) : shiftMonths dt 0 = dt := by
  obtain ⟨y, m, d, sc⟩ := dt
  obtain ⟨hy, hm1, hm2, hd1, hd2, hs⟩ := h
  simp only at hy hm1 hm2 hd1 hd2 hs
  unfold shiftMonths monthIndex
  simp only
  have e1 : (12 * (y - 1) + (m - 1) + 0) / 12 = y - 1 := by omega
  have e2 : (12 * (y - 1) + (m - 1) + 0) % 12 = m - 1 := by omega
  rw [e1, e2]
  have e3 : y - 1 + 1 = y := by omega
  have e4 : m - 1 + 1 = m := by omega
  rw [e3, e4]
  have e5 : min d (daysInMonth y m) = d := by omega
  rw [e5]

/-- Shifting a valid datetime by more months lands strictly later. -/
lemma dtKey_shiftMonths_strict (dt : DT) (h : ValidDT dt) {k k' : Nat}
    (hkk : k < k') :
    dtKey (shiftMonths dt k) < dtKey (shiftMonths dt k') := by
  obtain ⟨hy, hm1, hm2, hd1, hd2, hs⟩ := h
  have hday31 : dt.day ≤ 31 := by
    have := daysInMonth_bounds dt.year dt.month
    omega
  have h1 := ordinal_shiftMonths dt k
  have h2 := ordinal_shiftMonths dt k'
  have hb := monthStart_add_le (monthIndex dt + k) (k' - k)
  have he : monthIndex dt + k + (k' - k) = monthIndex dt + k' := by omega
  rw [he] at hb
  have hdimk := daysInMonth_bounds ((monthIndex dt + k) / 12 + 1)
    ((monthIndex dt + k) % 12 + 1)
  have hdimk' := daysInMonth_bounds ((monthIndex dt + k') / 12 + 1)
    ((monthIndex dt + k') % 12 + 1)
  have hsec : (shiftMonths dt k).sec = dt.sec := rfl
  have hsec' : (shiftMonths dt k').sec = dt.sec := rfl
  unfold dtKey
  rw [h1, h2, hsec, hsec']
  omega

/-- Shifting a valid datetime is monotone in the month count. -/
lemma dtKey_shiftMonths_mono (dt : DT) (h : ValidDT dt) {k k' : Nat}
    (hkk : k ≤ k') :
    dtKey (shiftMonths dt k) ≤ dtKey (shiftMonths dt k') := by
  rcases Nat.lt_or_ge k k' with hlt | hge
  · exact Nat.le_of_lt (dtKey_shiftMonths_strict dt h hlt)
  · have : k = k' := by omega
    rw [this]

/-- The adjusted month count never exceeds its starting value. -/
lemma adjustMonths_le (dt1 dt2 : DT) (m : Nat) :
    adjustMonths dt1 dt2 m ≤ m := by
  induction m with
  | zero => simp [adjustMonths]
  | succ m ih =>
    simp only [adjustMonths]
    split_ifs
    · omega
    · omega

/-- The loop never drops below a month count whose shift does not overshoot. -/
lemma adjustMonths_ge (dt1 dt2 : DT) (m : Nat) :
    ∀ a, a ≤ m → dtKey (shiftMonths dt2 a) ≤ dtKey dt1 →
      a ≤ adjustMonths dt1 dt2 m := by
  induction m with
  | zero =>
    intro a ha _
    simp [adjustMonths]
    omega
  | succ m ih =>
    intro a ha hk
    simp only [adjustMonths]
    split_ifs with hlt
    · refine ih a ?_ hk
      by_contra hgt
      have ha' : a = m + 1 := by omega
      rw [ha'] at hk
      omega
    · omega

/-- The loop's result stays strictly below any month count whose shift
overshoots (for a valid `dt2` not after `dt1`). -/
lemma adjustMonths_lt (dt1 dt2 : DT) (h2 : ValidDT dt2)
    (h0 : dtKey dt2 ≤ dtKey dt1) (m b : Nat)
    (hb : dtKey dt1 < dtKey (shiftMonths dt2 b)) :
    adjustMonths dt1 dt2 m < b := by
  induction m with
  | zero =>
    rcases Nat.eq_zero_or_pos b with hb0 | hpos
    · rw [hb0, shiftMonths_zero dt2 h2] at hb
      omega
    · simpa [adjustMonths] using hpos
  | succ m ih =>
    simp only [adjustMonths]
    split_ifs with hlt
    · exact ih
    · by_contra hble
      have hbm : b ≤ m + 1 := by omega
      have := dtKey_shiftMonths_mono dt2 h2 hbm
      omega

/-- C8: `duration_ago` renders a timestamp exactly 400 days before `now` as
"1 year ago" and one exactly 40 days before `now` as "1 month ago", for
every valid pair of datetimes — the delta is computed through calendar
years/months (`relativedelta`'s month walk with day clamping, not fixed
30-day buckets) and only the single largest applicable unit is emitted. -/
theorem duration_ago_calendar (now dt : DT)
    (hnow : ValidDT now) (hdt : ValidDT dt) :
    (dtKey now = dtKey dt + 400 * 86400 → duration_ago now dt = "1 year ago") ∧
    (dtKey now = dtKey dt + 40 * 86400 → duration_ago now dt = "1 month ago") := by
  have hsN : now.sec < 86400 := hnow.2.2.2.2.2
  have hsD : dt.sec < 86400 := hdt.2.2.2.2.2
  have hdayN : 1 ≤ now.day ∧ now.day ≤ 31 := by
    have := daysInMonth_bounds now.year now.month
    exact ⟨hnow.2.2.2.1, by have h := hnow.2.2.2.2.1; omega⟩
  have hdayD : 1 ≤ dt.day ∧ dt.day ≤ 31 := by
    have := daysInMonth_bounds dt.year dt.month
    exact ⟨hdt.2.2.2.1, by have h := hdt.2.2.2.2.1; omega⟩
  have hoN := ordinal_eq_monthStart now hnow
  have hoD := ordinal_eq_monthStart dt hdt
  constructor
  · intro hkey
    have hsec : now.sec = dt.sec ∧ ordinal now = ordinal dt + 400 := by
      unfold dtKey at hkey
      omega
    obtain ⟨hseceq, hord⟩ := hsec
    have hidx : monthIndex dt + 12 < monthIndex now := by
      by_contra hle
      push_neg at hle
      have hms := monthStart_mono hle
      have h12 := monthStart_add_twelve (monthIndex dt)
      omega
    have hsh12 : dtKey (shiftMonths dt 12) ≤ dtKey now := by
      have ho := ordinal_shiftMonths dt 12
      have h12 := monthStart_add_twelve (monthIndex dt)
      have hmin : min dt.day (daysInMonth ((monthIndex dt + 12) / 12 + 1)
          ((monthIndex dt + 12) % 12 + 1)) ≤ dt.day := Nat.min_le_left _ _
      have hsec12 : (shiftMonths dt 12).sec = dt.sec := rfl
      unfold dtKey
      rw [hsec12, ho]
      omega
    have hsh24 : dtKey now < dtKey (shiftMonths dt 24) := by
      have ho := ordinal_shiftMonths dt 24
      have h12a := monthStart_add_twelve (monthIndex dt)
      have h12b := monthStart_add_twelve (monthIndex dt + 12)
      have he : monthIndex dt + 12 + 12 = monthIndex dt + 24 := by omega
      rw [he] at h12b
      have hdim := daysInMonth_bounds ((monthIndex dt + 24) / 12 + 1)
        ((monthIndex dt + 24) % 12 + 1)
      have hsec24 : (shiftMonths dt 24).sec = dt.sec := rfl
      unfold dtKey
      rw [hsec24, ho]
      omega
    have hm0 : 12 ≤ monthIndex now - monthIndex dt := by omega
    have hge := adjustMonths_ge now dt (monthIndex now - monthIndex dt)
      12 hm0 hsh12
    have h0 : dtKey dt ≤ dtKey now := by
      unfold dtKey
      omega
    have hlt := adjustMonths_lt now dt hdt h0
      (monthIndex now - monthIndex dt) 24 hsh24
    have hyrs : (relativedelta now dt).years = 1 := by
      show adjustMonths now dt (monthIndex now - monthIndex dt) / 12 = 1
      omega
    simp only [duration_ago, hyrs]
    norm_num [plural]
    rfl
  · intro hkey
    have hsec : now.sec = dt.sec ∧ ordinal now = ordinal dt + 40 := by
      unfold dtKey at hkey
      omega
    obtain ⟨hseceq, hord⟩ := hsec
    have hidx : monthIndex dt < monthIndex now := by
      by_contra hle
      push_neg at hle
      have hms := monthStart_mono hle
      omega
    have hsh1 : dtKey (shiftMonths dt 1) ≤ dtKey now := by
      have ho := ordinal_shiftMonths dt 1
      have hb := monthStart_add_le (monthIndex dt) 1
      have hmin : min dt.day (daysInMonth ((monthIndex dt + 1) / 12 + 1)
          ((monthIndex dt + 1) % 12 + 1)) ≤ dt.day := Nat.min_le_left _ _
      have hsec1 : (shiftMonths dt 1).sec = dt.sec := rfl
      unfold dtKey
      rw [hsec1, ho]
      omega
    have hsh2 : dtKey now < dtKey (shiftMonths dt 2) := by
      have ho := ordinal_shiftMonths dt 2
      have hsA := monthStart_succ (monthIndex dt)
      have hsB := monthStart_succ (monthIndex dt + 1)
      have he : monthIndex dt + 1 + 1 = monthIndex dt + 2 := rfl
      rw [he] at hsB
      have hdimA := daysInMonth_bounds ((monthIndex dt) / 12 + 1)
        ((monthIndex dt) % 12 + 1)
      have hdimB := daysInMonth_bounds ((monthIndex dt + 1) / 12 + 1)
        ((monthIndex dt + 1) % 12 + 1)
      have hdim2 := daysInMonth_bounds ((monthIndex dt + 2) / 12 + 1)
        ((monthIndex dt + 2) % 12 + 1)
      have hsec2 : (shiftMonths dt 2).sec = dt.sec := rfl
      unfold dtKey
      rw [hsec2, ho]
      omega
    have hm0 : 1 ≤ monthIndex now - monthIndex dt := by omega
    have hge := adjustMonths_ge now dt (monthIndex now - monthIndex dt)
      1 hm0 hsh1
    have h0 : dtKey dt ≤ dtKey now := by
      unfold dtKey
      omega
    have hlt := adjustMonths_lt now dt hdt h0
      (monthIndex now - monthIndex dt) 2 hsh2
    have hyrs : (relativedelta now dt).years = 0 := by
      show adjustMonths now dt (monthIndex now - monthIndex dt) / 12 = 0
      omega
    have hmos : (relativedelta now dt).months = 1 := by
      show adjustMonths now dt (monthIndex now - monthIndex dt) % 12 = 1
      omega
    simp only [duration_ago, hyrs, hmos]
    norm_num [plural]
    rfl

/-- C8 witness: 2024-02-14 is exactly 400 days after 2023-01-10 and exactly
40 days after 2024-01-05 (midnight both sides). -/
theorem duration_ago_calendar_witness :
    duration_ago ⟨2024, 2, 14, 0⟩ ⟨2023, 1, 10, 0⟩ = "1 year ago" ∧
    duration_ago ⟨2024, 2, 14, 0⟩ ⟨2024, 1, 5, 0⟩ = "1 month ago" :=
  ⟨(duration_ago_calendar ⟨2024, 2, 14, 0⟩ ⟨2023, 1, 10, 0⟩
      (by decide) (by decide)).1 (by decide),
   (duration_ago_calendar ⟨2024, 2, 14, 0⟩ ⟨2024, 1, 5, 0⟩
      (by decide) (by decide)).2 (by decide)⟩
